import Mathlib

/-!
# Verification of the developer-comment extraction core of cargo-spellcheck

Shallow embedding of `src/documentation/developer.rs`,
`src/documentation/chunk.rs` and `src/config/search_dirs.rs`.

Strings are modelled as `List Char` (Unicode scalar values); where the code
works on raw bytes (`source_to_tokens_with_location` slices the source by byte
offsets) the source is modelled as `List Nat` of bytes.  Rust panics
(`assert!`, arithmetic underflow in debug builds) are modelled as
`Except.error`; `IndexMap` iteration order is insertion order, modelled by a
`List` of key-value pairs.
-/

deriving instance DecidableEq for Except

namespace CargoSpellcheck

/-! ## Comment classification (`developer.rs`)

The classifier matches the token content against two anchored regexes.

* `BLOCK_COMMENT = ^/\*(?s)(?P<content>.*)\*/$` : with the `s` flag, `.`
  matches every character including newline, so a full match is exactly a
  string of length ≥ 4 that starts with `/*` and ends with `*/`.
* `LINE_COMMENT = ^//([^[/|!]].*)$` : the character class `[^[/|!]]` is the
  complement of the nested class `[/|!]`, i.e. any character other than
  `/`, `|`, `!` (a negated class also matches a newline); `.` does not match
  newline and `$` only matches at the end of the haystack, so the full match
  requires that no character after the third one is a newline.
-/

/-- Embedding of the `BLOCK_COMMENT` regex `^/\*(?s)(?P<content>.*)\*/$`:
full-string match iff the content has length at least 4, starts with the two
characters `/*` and ends with the two characters `*/`. -/
def block_comment_is_match (s : List Char) : Bool :=
  decide (4 ≤ s.length) && (s.take 2 == ['/', '*'])
    && (s.drop (s.length - 2) == ['*', '/'])

/-- Embedding of the `LINE_COMMENT` regex `^//([^[/|!]].*)$`: full-string
match iff the content starts with `//`, has a third character that is none of
`/`, `|`, `!`, and no character after the third one is a newline. -/
def line_comment_is_match (s : List Char) : Bool :=
  match s with
  | c1 :: c2 :: c3 :: rest =>
    c1 == '/' && c2 == '/' && !(c3 == '/') && !(c3 == '|') && !(c3 == '!')
      && rest.all (fun d => !(d == '\n'))
  | _ => false

/-- Embedding of `TokenType` from `developer.rs`. -/
inductive TokenType where
  | BlockComment
  | LineComment
  | Other
deriving DecidableEq, Repr

/-- Embedding of `TokenType::pre_in_chars`: scalar length of the prefix string
(`/*`, `//`, ``). -/
def TokenType.pre_in_chars : TokenType → Nat
  | .BlockComment => 2
  | .LineComment => 2
  | .Other => 0

/-- Embedding of `TokenType::post_in_chars`: scalar length of the postfix string
(`*/`, ``, ``). -/
def TokenType.post_in_chars : TokenType → Nat
  | .BlockComment => 2
  | .LineComment => 0
  | .Other => 0

/-- Embedding of `TokenWithLineColumn` from `developer.rs`. -/
structure TokenWithLineColumn where
  content : List Char
  line : Nat
  column : Nat
deriving DecidableEq, Repr

/-- Embedding of `TokenWithType` from `developer.rs`. -/
structure TokenWithType where
  kind : TokenType
  content : List Char
  line : Nat
  column : Nat
deriving DecidableEq, Repr

/-- Embedding of `TokenWithType::from` (named `identify_token_type` by the repository's
tests): classify by first checking the block-comment regex, then the
line-comment regex, defaulting to `Other`. -/
def identify_token_type (token : TokenWithLineColumn) : TokenWithType :=
  let kind :=
    if block_comment_is_match token.content then TokenType.BlockComment
    else if line_comment_is_match token.content then TokenType.LineComment
    else TokenType.Other
  { kind := kind, content := token.content, line := token.line,
    column := token.column }

/-- Embedding of `retain_only_developer_comments`: keep the tokens whose kind is not
`Other`. -/
def retain_only_developer_comments (tokens : List TokenWithType) :
    List TokenWithType :=
  tokens.filter (fun t => t.kind ≠ TokenType.Other)

/-! ## Coordinate index (`developer.rs`) -/

/-- Embedding of `count_lines`: number of `'\n'` scalars in the fragment plus 1. -/
def count_lines (fragment : List Char) : Nat :=
  (fragment.filter (fun c => c = '\n')).length + 1

/-- Index (in scalars) of the last `'\n'` of the fragment, if any: the
scalar-level counterpart of `str::rfind('\n')` (whose byte index is used in
the source only to form the prefix `fragment[..p]`, which at scalar level is
`fragment.take p`). -/
def rfind_newline : List Char → Option Nat
  | [] => none
  | c :: rest =>
    match rfind_newline rest with
    | some p => some (p + 1)
    | none => if c = '\n' then some 0 else none

/-- Embedding of `calculate_column`: 0-indexed column of the position just after the last
character of the fragment, in scalars. -/
def calculate_column (fragment : List Char) : Nat :=
  match rfind_newline fragment with
  | some p => fragment.length - (fragment.take p).length - 1
  | none => fragment.length

/-! ## Source tokenization with byte locations (`developer.rs`)

`source_to_tokens_with_location` drives `ra_ap_syntax::tokenize`, which
returns for the whole input a sequence of token byte lengths covering the
input completely.  The external tokenizer is modelled by the length list it
produces; the loop of the source slices the source at the running byte
offset.  Sources are byte lists here because the code slices by bytes. -/

/-- Embedding of `TokenWithLocation` from `developer.rs`: content (bytes) plus the byte
offset of the token start. -/
structure TokenWithLocation where
  content : List Nat
  location : Nat
deriving DecidableEq, Repr

/-- The loop body of `source_to_tokens_with_location`: starting at byte
offset `location`, cut one slice `source[location..location+len]` per token
length and advance the offset. -/
def tokens_from_location (source : List Nat) : Nat → List Nat →
    List TokenWithLocation
  | _, [] => []
  | location, len :: rest =>
    ⟨(source.drop location).take len, location⟩
      :: tokens_from_location source (location + len) rest

/-- Embedding of `source_to_tokens_with_location`, with the external tokenizer
`ra_ap_syntax::tokenize` abstracted by the list `lens` of token byte lengths
it yields (its contract: the lengths sum to the byte length of the input). -/
def source_to_tokens_with_location (source : List Nat) (lens : List Nat) :
    List TokenWithLocation :=
  tokens_from_location source 0 lens

/-! ## Literals and literal sets

`TrimmedLiteral` and `LiteralSet` live in repository files that are not part
of the given sources (`src/documentation/literal.rs`,
`src/documentation/literalset.rs`); they are modelled from the spec. -/

/-- Embedding of `CommentVariant`; the developer pipeline only uses `Unknown`. -/
inductive CommentVariant where
  | Unknown
deriving DecidableEq, Repr

/-- Modelled from the spec: `TrimmedLiteral` (§3) is
`{ variant, raw, pre_scalars, post_scalars, line, column }` with the
invariant `raw.scalar_len() ≥ pre_scalars + post_scalars`. -/
structure TrimmedLiteral where
  variant : CommentVariant
  raw : List Char
  pre : Nat
  post : Nat
  line : Nat
  column : Nat
deriving DecidableEq, Repr

/-- Modelled from the spec: `TrimmedLiteral::from` (§4.4) fails when
`raw.scalar_len() < pre + post` or when the computed column arithmetic would
wrap — the span's end column (§3) is `column + raw.scalar_len() − post − 1`,
which underflows in `usize` exactly when `column + raw.scalar_len() < post + 1`
(for example `raw = "*/"` with `post = 2` at column 0, or an empty raw at
column 0); otherwise it records the fields verbatim. -/
def TrimmedLiteral.fromParts (variant : CommentVariant) (raw : List Char)
    (pre post line column : Nat) : Except String TrimmedLiteral :=
  if raw.length < pre + post then
    .error "scalar length smaller than combined delimiter widths"
  else if column + raw.length < post + 1 then
    .error "column arithmetic would wrap"
  else
    .ok ⟨variant, raw, pre, post, line, column⟩

/-- Trimmed content of a literal: raw minus `pre` leading and `post`
trailing scalars. -/
def TrimmedLiteral.trimmed (l : TrimmedLiteral) : List Char :=
  (l.raw.drop l.pre).take (l.raw.length - l.pre - l.post)

/-- Modelled from the spec: `LiteralSet` (§3) is an ordered non-empty
sequence of `TrimmedLiteral`s. -/
structure LiteralSet where
  literals : List TrimmedLiteral
deriving DecidableEq, Repr

/-- Modelled from the spec: `LiteralSet::from` (§4.5) builds a set of
length 1. -/
def LiteralSet.fromLiteral (l : TrimmedLiteral) : LiteralSet :=
  ⟨[l]⟩

/-- Modelled from the spec: `LiteralSet::add_adjacent` (§4.5) appends iff
the literal's line is the last literal's line plus 1, otherwise returns the
literal unchanged to the caller. -/
def LiteralSet.add_adjacent (s : LiteralSet) (l : TrimmedLiteral) :
    Except TrimmedLiteral LiteralSet :=
  match s.literals.getLast? with
  | some last => if l.line = last.line + 1 then .ok ⟨s.literals ++ [l]⟩ else .error l
  | none => .error l

/-! ## Block-comment literal construction (`developer.rs`) -/

/-- Embedding of `str::split("\n")`: the pieces between newline separators,
empty pieces kept, one piece more than there are newlines; the empty string
splits into one empty piece. -/
def split_newlines : List Char → List (List Char)
  | [] => [[]]
  | c :: rest =>
    if c = '\n' then [] :: split_newlines rest
    else
      match split_newlines rest with
      | [] => [[c]]
      | l :: ls => (c :: l) :: ls

/-- The `while let` loop of `literal_set_from_block_comment`: one literal per
remaining line, `pre = 0`, `post = 2` iff the line ends with `*/`, column 0,
line number incremented before each literal. -/
def add_block_comment_lines (set : LiteralSet) (line_number : Nat) :
    List (List Char) → Except String LiteralSet
  | [] => .ok set
  | next_line :: rest =>
    let post := if ['*', '/'].isSuffixOf next_line then
      TokenType.BlockComment.post_in_chars else 0
    match TrimmedLiteral.fromParts .Unknown next_line 0 post (line_number + 1) 0 with
    | .error s => .error ("Failed to create literal: " ++ s)
    | .ok literal =>
      match set.add_adjacent literal with
      | .error _ => .error "Failed to add line to literal set"
      | .ok set2 => add_block_comment_lines set2 (line_number + 1) rest

/-- Embedding of `literal_set_from_block_comment`: reject non-block-comment tokens and
improperly delimited content, then split the content on `'\n'`; a single-line
comment gives one literal with `pre = post = 2` at the token position; a
multi-line comment gives a first literal with `pre = 2`, `post = 0` at the
token position and one literal per further line via the loop. -/
def literal_set_from_block_comment (token : TokenWithType) :
    Except String LiteralSet :=
  if token.kind ≠ TokenType.BlockComment then
    .error "Got token of wrong type"
  else if ¬ block_comment_is_match token.content then
    .error "Token claimed to be a block comment, but improperly delimited"
  else
    match split_newlines token.content with
    | [] => .error "BUG! Expected block comment to have at least two lines"
    | [_only] =>
      match TrimmedLiteral.fromParts .Unknown token.content
          TokenType.BlockComment.pre_in_chars
          TokenType.BlockComment.post_in_chars token.line token.column with
      | .error s => .error ("Failed to create literal from single line block comment: " ++ s)
      | .ok literal => .ok (LiteralSet.fromLiteral literal)
    | first_line :: rest =>
      match TrimmedLiteral.fromParts .Unknown first_line
          TokenType.BlockComment.pre_in_chars 0 token.line token.column with
      | .error s => .error ("Failed to create literal from block comment: " ++ s)
      | .ok literal =>
        add_block_comment_lines (LiteralSet.fromLiteral literal) token.line rest

/-! ## Checkable chunks and `find_spans` (`chunk.rs`)

`IndexMap` iterates in insertion order; `source_mapping` is therefore a list
of `(Range, Span)` pairs.  The two `assert` macros inside `find_spans` and
the debug-build underflow of `span.end.column -= …` are panics; `find_spans`
is modelled in `Except String`, where `Except.error` is a panic and
`Except.ok` the returned map. -/

/-- A line/column position (`LineColumn`): 1-indexed line, 0-indexed column
in Unicode scalars. -/
structure LineColumn where
  line : Nat
  column : Nat
deriving DecidableEq, Repr

/-- A span in the source (`Span`): inclusive start and end positions
(`stop` stands for the source's `end` field, a Lean keyword). -/
structure Span where
  start : LineColumn
  stop : LineColumn
deriving DecidableEq, Repr

/-- A half-open byte range `[start, stop)` into a chunk's content
(`stop` stands for the source's `end` field). -/
structure SrcRange where
  start : Nat
  stop : Nat
deriving DecidableEq, Repr

/-- Embedding of `Range::contains` for `Range<usize>`: `start ≤ i < stop`. -/
def SrcRange.containsIdx (r : SrcRange) (i : Nat) : Bool :=
  decide (r.start ≤ i) && decide (i < r.stop)

/-- Embedding of `CheckableChunk`: rendered content plus the ordered range-to-span
mapping. -/
structure CheckableChunk where
  content : List Char
  source_mapping : List (SrcRange × Span)
deriving DecidableEq, Repr

/-- The closure applied to an emitted fragment range in `find_spans`:
assert that the entry's span is single-line, shift the start column right by
`fract.start - range.start`, shrink the end column by
`range.stop - fract.stop` (a panic when it would underflow), and assert the
adjusted start column does not exceed the adjusted end column. -/
def adjust_fragment (fract range : SrcRange) (span : Span) :
    Except String (SrcRange × Span) :=
  if span.start.line ≠ span.stop.line then
    .error "assertion failed: span.start.line == span.end.line"
  else if span.stop.column < range.stop - fract.stop then
    .error "attempt to subtract with overflow"
  else if span.start.column + (fract.start - range.start)
      ≤ span.stop.column - (range.stop - fract.stop) then
    .ok (fract,
      ⟨⟨span.start.line, span.start.column + (fract.start - range.start)⟩,
       ⟨span.stop.line, span.stop.column - (range.stop - fract.stop)⟩⟩)
  else
    .error "assertion failed: span.start.column <= span.end.column"

/-- One iteration of the `filter_map` state machine in `find_spans`, for
query `[qs, qe)`: the optional fragment range emitted for a mapping entry
together with the updated `active` flag. -/
def emission_step (qs qe : Nat) (active : Bool) (range : SrcRange) :
    Option SrcRange × Bool :=
  if range.containsIdx qs then
    (some (if qe > 0 && range.containsIdx (qe - 1) then ⟨qs, qe⟩
           else ⟨qs, range.stop⟩), true)
  else if active then (some range, true)
  else if range.containsIdx qe then (some ⟨range.start, qe⟩, false)
  else (none, active)

/-- The traversal of `source_mapping` inside `find_spans`: per entry compute
the emission, run the adjustment closure on an emitted fragment (first panic
aborts the whole call), and collect the adjusted fragments in order. -/
def find_spans_go (qs qe : Nat) : Bool → List (SrcRange × Span) →
    Except String (List (SrcRange × Span))
  | _, [] => .ok []
  | active, (range, span) :: rest =>
    match emission_step qs qe active range with
    | (none, a) => find_spans_go qs qe a rest
    | (some fract, a) =>
      match adjust_fragment fract range span with
      | .error s => .error s
      | .ok e =>
        match find_spans_go qs qe a rest with
        | .error s => .error s
        | .ok tail => .ok (e :: tail)

/-- Embedding of `CheckableChunk::find_spans` on a query range, starting inactive. -/
def find_spans (chunk : CheckableChunk) (range : SrcRange) :
    Except String (List (SrcRange × Span)) :=
  find_spans_go range.start range.stop false chunk.source_mapping

/-- The `active` flag after visiting a prefix of the mapping entries. -/
def active_after (qs qe : Nat) (active : Bool) : List (SrcRange × Span) → Bool
  | [] => active
  | (range, _) :: rest =>
    active_after qs qe (emission_step qs qe active range).2 rest

/-! ## Search directories (`config/search_dirs.rs`)

The serde plumbing is external; its payload-level behaviour is embedded.
`Serialize` writes the inner vector as a newtype sequence;
`SearchDirVisitor::visit_newtype_struct` reads the sequence back and extends
it with the OS-specific defaults.  Claims fix the OS to Linux, so the
`target_os = "linux"` branch of `os_specific_search_dirs` is embedded. -/

/-- Embedding of `os_specific_search_dirs`, `target_os = "linux"` branch. -/
def os_specific_search_dirs_linux : List String :=
  ["/usr/share/myspell/", "/usr/share/hunspell/", "/usr/share/myspell/dicts/"]

/-- Embedding of `SearchDirs`: a collection of search directories. -/
structure SearchDirs where
  dirs : List String
deriving DecidableEq, Repr

/-- Embedding of `impl Serialize for SearchDirs`: the newtype payload is the inner
vector, unchanged. -/
def serialize_search_dirs (s : SearchDirs) : List String :=
  s.dirs

/-- Embedding of `SearchDirVisitor::visit_newtype_struct` (the deserialization path): the
deserialized sequence extended by the OS-specific defaults. -/
def deserialize_search_dirs (seq : List String) : SearchDirs :=
  ⟨seq ++ os_specific_search_dirs_linux⟩

/-- One serialize-then-deserialize round trip of `SearchDirs`. -/
def search_dirs_round_trip (s : SearchDirs) : SearchDirs :=
  deserialize_search_dirs (serialize_search_dirs s)

/-! ## Theorems -/

/-- The three-or-more-character case of the line-comment regex, as a
structural characterization. -/
theorem line_comment_is_match_iff (s : List Char) :
    line_comment_is_match s = true ↔
      ∃ c rest, s = '/' :: '/' :: c :: rest
        ∧ c ≠ '/' ∧ c ≠ '|' ∧ c ≠ '!' ∧ '\n' ∉ rest := by
  match s with
  | [] => simp [line_comment_is_match]
  | [c1] => simp [line_comment_is_match]
  | [c1, c2] => simp [line_comment_is_match]
  | c1 :: c2 :: c3 :: rest =>
    simp only [line_comment_is_match, Bool.and_eq_true, beq_iff_eq,
      Bool.not_eq_true', beq_eq_false_iff_ne, ne_eq, List.all_eq_true]
    constructor
    · rintro ⟨⟨⟨⟨⟨h1, h2⟩, h3⟩, h4⟩, h5⟩, h6⟩
      subst h1; subst h2
      refine ⟨c3, rest, rfl, h3, h4, h5, fun hmem => h6 '\n' hmem rfl⟩
    · rintro ⟨c, r, heq, h3, h4, h5, h6⟩
      injection heq with e1 heq
      injection heq with e2 heq
      injection heq with e3 e4
      subst e1; subst e2; subst e3; subst e4
      refine ⟨⟨⟨⟨⟨rfl, rfl⟩, h3⟩, h4⟩, h5⟩, fun d hd hdeq => h6 (hdeq ▸ hd)⟩

/-- A token whose content starts with two slashes never matches the
block-comment regex. -/
theorem block_comment_no_match_double_slash (r : List Char) :
    block_comment_is_match ('/' :: '/' :: r) = false := by
  simp [block_comment_is_match, List.take]

/-- **C8.** Deserializing a `SearchDirs` value appends the OS-specific
default directories after the user-specified paths rather than replacing
them; on Linux, deserializing the sequence `["/custom/dict"]` yields exactly
`["/custom/dict", "/usr/share/myspell/", "/usr/share/hunspell/",
"/usr/share/myspell/dicts/"]` in that order. -/
theorem c8_search_dirs_appended :
    (∀ seq : List String,
      (deserialize_search_dirs seq).dirs = seq ++ os_specific_search_dirs_linux)
    ∧ (deserialize_search_dirs ["/custom/dict"]).dirs =
        ["/custom/dict", "/usr/share/myspell/", "/usr/share/hunspell/",
         "/usr/share/myspell/dicts/"] := by
  exact ⟨fun _ => rfl, rfl⟩

/-- **C10.** Serialize-then-deserialize of `SearchDirs` is not the identity:
one round trip appends the OS-specific defaults (three directories on Linux)
once more at the end, and `n` round trips append them `n` times, so repeated
round trips accumulate duplicate default entries. -/
theorem c10_round_trip_grows :
    (∀ v : SearchDirs,
      (search_dirs_round_trip v).dirs = v.dirs ++ os_specific_search_dirs_linux)
    ∧ (∀ v : SearchDirs,
      (search_dirs_round_trip v).dirs.length = v.dirs.length + 3)
    ∧ (∀ v : SearchDirs, search_dirs_round_trip v ≠ v)
    ∧ (∀ (v : SearchDirs) (n : Nat),
      (search_dirs_round_trip^[n] v).dirs
        = v.dirs ++ (List.replicate n os_specific_search_dirs_linux).flatten) := by
  refine ⟨fun v => rfl, fun v => ?_, fun v h => ?_, fun v n => ?_⟩
  · simp [search_dirs_round_trip, deserialize_search_dirs,
      serialize_search_dirs, os_specific_search_dirs_linux]
  · have hlen := congrArg (fun s => s.dirs.length) h
    simp [search_dirs_round_trip, deserialize_search_dirs,
      serialize_search_dirs, os_specific_search_dirs_linux] at hlen
  · induction n with
    | zero => simp
    | succ m ih =>
      rw [Function.iterate_succ_apply']
      have : (search_dirs_round_trip (search_dirs_round_trip^[m] v)).dirs
          = (search_dirs_round_trip^[m] v).dirs ++ os_specific_search_dirs_linux := rfl
      rw [this, ih, List.replicate_succ']
      simp

/-- **C1 (refuted by the code).** A block doc comment `/** … */` (and
`/*! … */`) matches the `BLOCK_COMMENT` regex, is classified `BlockComment`
rather than `Other`, survives `retain_only_developer_comments`, and
`literal_set_from_block_comment` builds a literal set from it; only the line
doc variants `/// …` and `//! …` are classified `Other`. -/
theorem c1_block_doc_comment_classified_developer :
    (identify_token_type ⟨("/** doc */").toList, 1, 0⟩).kind = TokenType.BlockComment
    ∧ (identify_token_type ⟨("/*! doc */").toList, 1, 0⟩).kind = TokenType.BlockComment
    ∧ retain_only_developer_comments
        [identify_token_type ⟨("/** doc */").toList, 1, 0⟩]
      = [⟨TokenType.BlockComment, ("/** doc */").toList, 1, 0⟩]
    ∧ literal_set_from_block_comment
        (identify_token_type ⟨("/** doc */").toList, 1, 0⟩)
      = .ok ⟨[⟨.Unknown, ("/** doc */").toList, 2, 2, 1, 0⟩]⟩
    ∧ (identify_token_type ⟨("/// doc").toList, 1, 0⟩).kind = TokenType.Other
    ∧ (identify_token_type ⟨("//! doc").toList, 1, 0⟩).kind = TokenType.Other := by
  decide

/-- **C3 (counterexample).** The token `//| x` does not fully match the
line-comment regex of the code (`^//([^[/|!]].*)$` also excludes `|`): the
classifier returns `Other`, not `LineComment` as the claim states. -/
theorem c3_counterexample_pipe_comment :
    (identify_token_type ⟨("//| x").toList, 3, 7⟩).kind = TokenType.Other
    ∧ (identify_token_type ⟨("//| x").toList, 3, 7⟩).kind ≠ TokenType.LineComment := by
  decide

/-- **C3 (amended).** A token is classified `LineComment` exactly when its
content starts with `//`, the immediately following character is none of
`/`, `|`, `!`, and no later character is a newline (so `//[ x` is a
`LineComment`, but `//| x` is not); tokens failing this and the
block-comment regex become `Other`. -/
theorem c3_amended_line_comment_exactly (t : TokenWithLineColumn) :
    (identify_token_type t).kind = TokenType.LineComment ↔
      ∃ c rest, t.content = '/' :: '/' :: c :: rest
        ∧ c ≠ '/' ∧ c ≠ '|' ∧ c ≠ '!' ∧ '\n' ∉ rest := by
  rw [← line_comment_is_match_iff]
  unfold identify_token_type
  by_cases hb : block_comment_is_match t.content
  · simp only [hb, if_true]
    constructor
    · intro h; cases h
    · intro hl
      rcases (line_comment_is_match_iff t.content).mp hl with ⟨c, r, heq, -⟩
      rw [heq, block_comment_no_match_double_slash] at hb
      cases hb
  · by_cases hl : line_comment_is_match t.content
    · simp [hb, hl]
    · simp [hb, hl]

/-- The last-newline search returns `none` exactly on newline-free
fragments. -/
theorem rfind_newline_eq_none_iff (l : List Char) :
    rfind_newline l = none ↔ '\n' ∉ l := by
  induction l with
  | nil => simp [rfind_newline]
  | cons c rest ih =>
    simp only [rfind_newline, List.mem_cons]
    cases hr : rfind_newline rest with
    | some p => simp [hr] at ih ⊢; exact fun _ => ih
    | none =>
      rw [hr] at ih
      have hrest := ih.mp rfl
      by_cases hc : c = '\n' <;> simp [hr, hc, hrest]
      exact fun h => hc h.symm

/-- The last-newline search finds the unique index that holds a newline and
has no newline after it. -/
theorem rfind_newline_eq_some (l : List Char) (p : Nat) (hp : p < l.length)
    (hget : l.get ⟨p, hp⟩ = '\n')
    (hafter : ∀ (j : Nat) (hj : j < l.length), p < j → l.get ⟨j, hj⟩ ≠ '\n') :
    rfind_newline l = some p := by
  induction l generalizing p with
  | nil => cases hp
  | cons c rest ih =>
    cases p with
    | zero =>
      have hrest : '\n' ∉ rest := by
        intro hmem
        rcases List.mem_iff_get.mp hmem with ⟨⟨j, hj⟩, hjget⟩
        exact hafter (j + 1) (by simpa using Nat.succ_lt_succ hj)
          (Nat.succ_pos j) hjget
      have hnone : rfind_newline rest = none :=
        (rfind_newline_eq_none_iff rest).mpr hrest
      simp only [rfind_newline, hnone]
      simp only [List.get] at hget
      simp [hget]
    | succ q =>
      have hq : q < rest.length := by simpa using Nat.lt_of_succ_lt_succ hp
      have hqget : rest.get ⟨q, hq⟩ = '\n' := by
        simpa [List.get] using hget
      have hqafter : ∀ (j : Nat) (hj : j < rest.length), q < j →
          rest.get ⟨j, hj⟩ ≠ '\n' := by
        intro j hj hgt
        have := hafter (j + 1) (by simpa using Nat.succ_lt_succ hj)
          (Nat.succ_lt_succ hgt)
        simpa [List.get] using this
      have := ih q hq hqget hqafter
      simp [rfind_newline, this]

/-- **C5.** `count_lines` is the number of `'\n'` scalars plus 1;
`calculate_column` is the scalar count minus the scalar count up to the last
newline (at scalar index `p`) minus 1 when the fragment has a newline, and
the full scalar count otherwise; both are total, with `count_lines "" = 1`
and `calculate_column "" = 0`, counting scalars and not bytes. -/
theorem c5_coordinate_index :
    (∀ l : List Char, count_lines l = l.count '\n' + 1)
    ∧ (∀ (l : List Char) (p : Nat) (hp : p < l.length),
        l.get ⟨p, hp⟩ = '\n' →
        (∀ (j : Nat) (hj : j < l.length), p < j → l.get ⟨j, hj⟩ ≠ '\n') →
        calculate_column l = l.length - p - 1)
    ∧ (∀ l : List Char, '\n' ∉ l → calculate_column l = l.length)
    ∧ count_lines [] = 1 ∧ calculate_column [] = 0 := by
  refine ⟨fun l => ?_, fun l p hp hget hafter => ?_, fun l hnot => ?_, rfl, rfl⟩
  · induction l with
    | nil => rfl
    | cons c t ih =>
      by_cases hc : c = '\n' <;>
        simp [count_lines, List.count_cons, hc] at ih ⊢ <;> omega
  · rw [calculate_column, rfind_newline_eq_some l p hp hget hafter]
    simp [List.length_take, Nat.min_eq_left (Nat.le_of_lt hp)]
  · rw [calculate_column, (rfind_newline_eq_none_iff l).mpr hnot]

/-- Witness for C5 on the fragment `"a\nb"`, whose last newline is at scalar
index 1. -/
theorem c5_coordinate_index_witness :
    calculate_column ['a', '\n', 'b'] = 3 - 1 - 1
    ∧ count_lines ['a', '\n', 'b'] = ['a', '\n', 'b'].count '\n' + 1
    ∧ calculate_column ['t', 'e', 's', 't', '中'] = 5 := by
  refine ⟨c5_coordinate_index.2.1 ['a', '\n', 'b'] 1 (by decide) (by decide) ?_,
    c5_coordinate_index.1 _, c5_coordinate_index.2.2.1 _ (by decide)⟩
  intro j hj hgt
  have hj3 : j < 3 := by simpa using hj
  have hj2 : j = 2 := by omega
  subst hj2
  show ('b' : Char) ≠ '\n'
  decide

/-- The token slices starting at `loc` concatenate to the slice of the
source from `loc` covering the summed token lengths. -/
theorem tokens_from_location_flatten (source : List Nat) (lens : List Nat)
    (loc : Nat) :
    ((tokens_from_location source loc lens).map TokenWithLocation.content).flatten
      = (source.drop loc).take lens.sum := by
  induction lens generalizing loc with
  | nil => simp [tokens_from_location]
  | cons len rest ih =>
    simp only [tokens_from_location, List.map_cons, List.flatten_cons,
      List.sum_cons]
    rw [ih (loc + len), List.take_add]
    congr 1
    rw [List.drop_drop]

/-- Each token's stored location is the running offset: `loc` plus the sum
of the lengths of the contents cut before it (those contents have full
length while the slices stay in range). -/
theorem tokens_from_location_offsets (source : List Nat) (lens : List Nat)
    (loc : Nat) (h : loc + lens.sum ≤ source.length) :
    ∀ (i : Nat) (hi : i < (tokens_from_location source loc lens).length),
      ((tokens_from_location source loc lens).get ⟨i, hi⟩).location
        = loc + (((tokens_from_location source loc lens).take i).map
            (fun t => t.content.length)).sum := by
  induction lens generalizing loc with
  | nil => intro i hi; cases hi
  | cons len rest ih =>
    intro i hi
    cases i with
    | zero => simp [tokens_from_location]
    | succ j =>
      have hlen : ((source.drop loc).take len).length = len := by
        simp only [List.length_take, List.length_drop]
        have hsum : len ≤ rest.sum + len := Nat.le_add_left len rest.sum
        simp only [List.sum_cons] at h
        omega
      have hj : j < (tokens_from_location source (loc + len) rest).length := by
        simpa [tokens_from_location] using hi
      have := ih (loc + len) (by simp only [List.sum_cons] at h; omega) j hj
      simp only [tokens_from_location, List.get, List.take, List.map_cons,
        List.sum_cons, hlen] at this ⊢
      omega

/-- **C6.** When the external tokenizer covers the whole input (the lengths
it yields sum to the source byte length, the contract of
`ra_ap_syntax::tokenize`), the tokens of `source_to_tokens_with_location`,
concatenated in order, reproduce the source byte-for-byte, and every token's
byte offset equals the sum of the byte lengths of all preceding tokens,
starting at 0. -/
theorem c6_tokens_reproduce_source (source : List Nat) (lens : List Nat)
    (h : lens.sum = source.length) :
    ((source_to_tokens_with_location source lens).map
        TokenWithLocation.content).flatten = source
    ∧ ∀ (i : Nat) (hi : i < (source_to_tokens_with_location source lens).length),
        ((source_to_tokens_with_location source lens).get ⟨i, hi⟩).location
          = (((source_to_tokens_with_location source lens).take i).map
              (fun t => t.content.length)).sum := by
  constructor
  · rw [source_to_tokens_with_location, tokens_from_location_flatten, h]
    simp
  · intro i hi
    have := tokens_from_location_offsets source lens 0 (by omega) i hi
    simpa [source_to_tokens_with_location] using this

/-- Witness for C6: the source `[10, 20, 30, 40, 50]` tokenized into lengths
`[2, 3]` reassembles exactly, and the second token sits at offset 2, the
length of the first token. -/
theorem c6_tokens_reproduce_source_witness :
    ((source_to_tokens_with_location [10, 20, 30, 40, 50] [2, 3]).map
        TokenWithLocation.content).flatten = [10, 20, 30, 40, 50]
    ∧ ((source_to_tokens_with_location [10, 20, 30, 40, 50] [2, 3]).get
        ⟨1, by decide⟩).location
      = (((source_to_tokens_with_location [10, 20, 30, 40, 50] [2, 3]).take 1).map
          (fun t => t.content.length)).sum := by
  exact ⟨(c6_tokens_reproduce_source [10, 20, 30, 40, 50] [2, 3] (by decide)).1,
    (c6_tokens_reproduce_source [10, 20, 30, 40, 50] [2, 3] (by decide)).2 1 (by decide)⟩

/-- Adjusting a fragment that is the whole mapping entry leaves the span
unchanged (both column shifts are zero), provided the entry's span is
single-line with ordered columns. -/
theorem adjust_fragment_whole (range : SrcRange) (span : Span)
    (hline : span.start.line = span.stop.line)
    (hcol : span.start.column ≤ span.stop.column) :
    adjust_fragment range range span = .ok (range, span) := by
  obtain ⟨⟨sl, sc⟩, ⟨el, ec⟩⟩ := span
  simp only [Span.start, Span.stop] at hline hcol
  simp [adjust_fragment, hline, hcol]

/-- A span accepted by the adjustment closure is single-line and has its
start column at or before its end column. -/
theorem adjust_fragment_ok_wf (fract range : SrcRange) (span : Span)
    (e : SrcRange × Span) (h : adjust_fragment fract range span = .ok e) :
    e.2.start.line = e.2.stop.line ∧ e.2.start.column ≤ e.2.stop.column := by
  unfold adjust_fragment at h
  split at h
  · cases h
  · split at h
    · cases h
    · split at h
      · rename_i hline _ hle
        cases h
        exact ⟨Decidable.not_not.mp hline, hle⟩
      · cases h

/-- Once the state machine is active, every remaining entry that does not
contain the query start is emitted whole with its span unchanged. -/
theorem find_spans_go_active_whole (qs qe : Nat) (l : List (SrcRange × Span))
    (h : ∀ e ∈ l, e.1.containsIdx qs = false
        ∧ e.2.start.line = e.2.stop.line
        ∧ e.2.start.column ≤ e.2.stop.column) :
    find_spans_go qs qe true l = .ok l := by
  induction l with
  | nil => rfl
  | cons e rest ih =>
    obtain ⟨range, span⟩ := e
    obtain ⟨hqs, hline, hcol⟩ := h (range, span) (List.mem_cons_self _ _)
    have hrest := fun x hx => h x (List.mem_cons_of_mem _ hx)
    simp only [find_spans_go, emission_step, hqs, Bool.false_eq_true, if_false,
      if_true, adjust_fragment_whole range span hline hcol, ih hrest]

/-- Entries of the mapping that contain neither endpoint of an empty query
`[qs, qs)` are skipped while the machine is inactive. -/
theorem find_spans_go_skip_inactive (qs : Nat)
    (l1 l2 : List (SrcRange × Span))
    (h : ∀ e ∈ l1, e.1.containsIdx qs = false) :
    find_spans_go qs qs false (l1 ++ l2) = find_spans_go qs qs false l2 := by
  induction l1 with
  | nil => rfl
  | cons e rest ih =>
    obtain ⟨range, span⟩ := e
    have hqs := h (range, span) (List.mem_cons_self _ _)
    have hrest := fun x hx => h x (List.mem_cons_of_mem _ hx)
    simp only [List.cons_append, find_spans_go, emission_step, hqs,
      Bool.false_eq_true, if_false]
    exact ih hrest

/-- If the traversal of a mapping prefix succeeds and the traversal of the
remainder (from the resulting active state) panics, the whole traversal
panics with the same message. -/
theorem find_spans_go_error_of_suffix (qs qe : Nat) (a : Bool)
    (l1 l2 : List (SrcRange × Span)) (m1 : List (SrcRange × Span)) (s : String)
    (h1 : find_spans_go qs qe a l1 = .ok m1)
    (h2 : find_spans_go qs qe (active_after qs qe a l1) l2 = .error s) :
    find_spans_go qs qe a (l1 ++ l2) = .error s := by
  induction l1 generalizing a m1 with
  | nil => simpa [active_after] using h2
  | cons e rest ih =>
    obtain ⟨range, span⟩ := e
    simp only [find_spans_go, List.cons_append] at h1 ⊢
    simp only [active_after] at h2
    cases hstep : emission_step qs qe a range with
    | mk o a2 =>
      rw [hstep] at h1 h2
      simp only at h2
      cases o with
      | none => exact ih a2 m1 h1 h2
      | some fract =>
        simp only at h1 ⊢
        cases hadj : adjust_fragment fract range span with
        | error s2 => rw [hadj] at h1; cases h1
        | ok e2 =>
          rw [hadj] at h1
          simp only at h1 ⊢
          cases hrec : find_spans_go qs qe a2 rest with
          | error s2 => rw [hrec] at h1; cases h1
          | ok tail =>
            rw [hrec] at h1
            simp only [List.append_eq] at ih ⊢
            rw [ih a2 tail hrec h2]

/-- Every fragment in a successfully returned map passed both assertions:
its span is single-line and its start column does not exceed its end
column. -/
theorem find_spans_go_ok_wf (qs qe : Nat) (a : Bool)
    (l : List (SrcRange × Span)) (m : List (SrcRange × Span))
    (h : find_spans_go qs qe a l = .ok m) :
    ∀ e ∈ m, e.2.start.line = e.2.stop.line
      ∧ e.2.start.column ≤ e.2.stop.column := by
  induction l generalizing a m with
  | nil =>
    simp only [find_spans_go] at h
    cases h
    intro e he
    cases he
  | cons hd rest ih =>
    obtain ⟨range, span⟩ := hd
    simp only [find_spans_go] at h
    cases hstep : emission_step qs qe a range with
    | mk o a2 =>
      rw [hstep] at h
      cases o with
      | none => exact ih a2 m h
      | some fract =>
        simp only at h
        cases hadj : adjust_fragment fract range span with
        | error s => rw [hadj] at h; cases h
        | ok e2 =>
          rw [hadj] at h
          simp only at h
          cases hrec : find_spans_go qs qe a2 rest with
          | error s => rw [hrec] at h; cases h
          | ok tail =>
            rw [hrec] at h
            cases h
            intro e he
            rcases List.mem_cons.mp he with he2 | he2
            · subst he2
              exact adjust_fragment_ok_wf fract range span e hadj
            · exact ih a2 tail hrec e he2

/-- **C2 (counterexample).** On the S5 mapping
`{0..5 → L1C2–C6, 6..11 → L2C0–C4}`, `find_spans(2..9)` emits the second
entry whole as `6..11 → L2C0–C4`; it does not return the right-trimmed
`6..9 → L2C0–C2` the claim states. -/
theorem c2_counterexample_s5 :
    find_spans ⟨[], [(⟨0, 5⟩, ⟨⟨1, 2⟩, ⟨1, 6⟩⟩), (⟨6, 11⟩, ⟨⟨2, 0⟩, ⟨2, 4⟩⟩)]⟩ ⟨2, 9⟩
      = .ok [(⟨2, 5⟩, ⟨⟨1, 4⟩, ⟨1, 6⟩⟩), (⟨6, 11⟩, ⟨⟨2, 0⟩, ⟨2, 4⟩⟩)]
    ∧ find_spans ⟨[], [(⟨0, 5⟩, ⟨⟨1, 2⟩, ⟨1, 6⟩⟩), (⟨6, 11⟩, ⟨⟨2, 0⟩, ⟨2, 4⟩⟩)]⟩ ⟨2, 9⟩
      ≠ .ok [(⟨2, 5⟩, ⟨⟨1, 4⟩, ⟨1, 6⟩⟩), (⟨6, 9⟩, ⟨⟨2, 0⟩, ⟨2, 2⟩⟩)] := by
  constructor
  · decide
  · decide

/-- **C2 (amended).** Once the entry containing the query start is visited
(active state), it is emitted as `qs..range.end` with the span trimmed on
the left, and every subsequent entry is emitted whole with its span
unadjusted; the `range.start..qe` right-trimmed emission never happens in
the active state.  In particular `find_spans(2..9)` on the S5 mapping yields
`{2..5 → L1C4–C6, 6..11 → L2C0–C4}`. -/
theorem c2_amended_active_emits_whole (content : List Char)
    (erange : SrcRange) (espan : Span) (rest : List (SrcRange × Span))
    (qs qe : Nat)
    (hqs : erange.containsIdx qs = true)
    (hqe : (decide (qe > 0) && erange.containsIdx (qe - 1)) = false)
    (hline : espan.start.line = espan.stop.line)
    (hcol : espan.start.column + (qs - erange.start) ≤ espan.stop.column)
    (hrest : ∀ x ∈ rest, x.1.containsIdx qs = false
        ∧ x.2.start.line = x.2.stop.line ∧ x.2.start.column ≤ x.2.stop.column) :
    find_spans ⟨content, (erange, espan) :: rest⟩ ⟨qs, qe⟩
      = .ok ((⟨qs, erange.stop⟩,
          ⟨⟨espan.start.line, espan.start.column + (qs - erange.start)⟩,
           espan.stop⟩) :: rest) := by
  have hadj : adjust_fragment ⟨qs, erange.stop⟩ erange espan
      = .ok (⟨qs, erange.stop⟩,
          ⟨⟨espan.start.line, espan.start.column + (qs - erange.start)⟩,
           espan.stop⟩) := by
    unfold adjust_fragment
    rw [if_neg (Decidable.not_not.mpr hline)]
    simp only [Nat.sub_self, Nat.sub_zero, Nat.not_lt_zero, if_false,
      if_pos hcol]
  unfold find_spans
  simp only [find_spans_go, emission_step, hqs, if_true, hqe,
    Bool.false_eq_true, if_false, hadj,
    find_spans_go_active_whole qs qe rest hrest]

/-- Witness for the amended C2 at the S5 data. -/
theorem c2_amended_active_emits_whole_witness :
    find_spans ⟨[], [(⟨0, 5⟩, ⟨⟨1, 2⟩, ⟨1, 6⟩⟩), (⟨6, 11⟩, ⟨⟨2, 0⟩, ⟨2, 4⟩⟩)]⟩ ⟨2, 9⟩
      = .ok [(⟨2, 5⟩, ⟨⟨1, 4⟩, ⟨1, 6⟩⟩), (⟨6, 11⟩, ⟨⟨2, 0⟩, ⟨2, 4⟩⟩)] := by
  have := c2_amended_active_emits_whole [] ⟨0, 5⟩ ⟨⟨1, 2⟩, ⟨1, 6⟩⟩
    [(⟨6, 11⟩, ⟨⟨2, 0⟩, ⟨2, 4⟩⟩)] 2 9 (by decide) (by decide) (by decide)
    (by decide) (by decide)
  exact this

/-- **C7.** Model of the panic behaviour of `find_spans` (the Rust function
returns a plain `IndexMap`, never a structured error): every fragment of a
successful result passed both assertions (single-line span, start column at
most end column), and whenever the query reaches a mapping entry (the state
machine emits a fragment for it) whose span is multi-line, the call panics
with the line assertion. -/
theorem c7_find_spans_only_panics :
    (∀ (chunk : CheckableChunk) (r : SrcRange) (m : List (SrcRange × Span)),
      find_spans chunk r = .ok m →
      ∀ e ∈ m, e.2.start.line = e.2.stop.line
        ∧ e.2.start.column ≤ e.2.stop.column)
    ∧ (∀ (chunk : CheckableChunk) (r : SrcRange)
        (pre : List (SrcRange × Span)) (erange : SrcRange) (espan : Span)
        (rest : List (SrcRange × Span)) (m1 : List (SrcRange × Span))
        (fract : SrcRange),
      chunk.source_mapping = pre ++ (erange, espan) :: rest →
      find_spans_go r.start r.stop false pre = .ok m1 →
      (emission_step r.start r.stop
          (active_after r.start r.stop false pre) erange).1 = some fract →
      espan.start.line ≠ espan.stop.line →
      find_spans chunk r
        = .error "assertion failed: span.start.line == span.end.line") := by
  constructor
  · intro chunk r m h
    exact find_spans_go_ok_wf r.start r.stop false chunk.source_mapping m h
  · intro chunk r pre erange espan rest m1 fract hmap hpre hstep hline
    unfold find_spans
    rw [hmap]
    apply find_spans_go_error_of_suffix r.start r.stop false pre _ m1 _ hpre
    simp only [find_spans_go]
    cases hstep2 : emission_step r.start r.stop
        (active_after r.start r.stop false pre) erange with
    | mk o a2 =>
      rw [hstep2] at hstep
      simp only at hstep
      subst hstep
      have hadj : adjust_fragment fract erange espan
          = .error "assertion failed: span.start.line == span.end.line" := by
        unfold adjust_fragment
        rw [if_pos hline]
      simp only [hadj]

/-- Witness for C7: a chunk whose single mapping entry carries a multi-line
span makes `find_spans` hit the line assertion as soon as the entry is
reached. -/
theorem c7_find_spans_only_panics_witness :
    find_spans ⟨[], [(⟨0, 5⟩, ⟨⟨1, 2⟩, ⟨2, 4⟩⟩)]⟩ ⟨0, 3⟩
      = .error "assertion failed: span.start.line == span.end.line" := by
  exact c7_find_spans_only_panics.2 ⟨[], [(⟨0, 5⟩, ⟨⟨1, 2⟩, ⟨2, 4⟩⟩)]⟩ ⟨0, 3⟩
    [] ⟨0, 5⟩ ⟨⟨1, 2⟩, ⟨2, 4⟩⟩ [] [] ⟨0, 3⟩ rfl rfl (by decide) (by decide)

/-- **C9.** For a chunk whose mapping has an entry whose range contains byte
offset 0 (all spans single-line with ordered columns, prior and later
entries not containing 0), `find_spans` on the empty query `0..0` activates
at that entry, emits it as the fragment `0..entry.end` with its span
unchanged, emits every subsequent entry whole, and thus returns a non-empty
map rather than an empty result. -/
theorem c9_empty_query_emits_from_zero (content : List Char)
    (pre : List (SrcRange × Span)) (erange : SrcRange) (espan : Span)
    (rest : List (SrcRange × Span))
    (hpre : ∀ x ∈ pre, x.1.containsIdx 0 = false)
    (he : erange.containsIdx 0 = true)
    (hline : espan.start.line = espan.stop.line)
    (hcol : espan.start.column ≤ espan.stop.column)
    (hrest : ∀ x ∈ rest, x.1.containsIdx 0 = false
        ∧ x.2.start.line = x.2.stop.line ∧ x.2.start.column ≤ x.2.stop.column) :
    find_spans ⟨content, pre ++ (erange, espan) :: rest⟩ ⟨0, 0⟩
      = .ok ((⟨0, erange.stop⟩, espan) :: rest)
    ∧ ((⟨0, erange.stop⟩, espan) :: rest) ≠ ([] : List (SrcRange × Span)) := by
  obtain ⟨es, et⟩ := erange
  have hstart : es = 0 := by
    simp only [SrcRange.containsIdx, Bool.and_eq_true, decide_eq_true_eq] at he
    omega
  subst hstart
  refine ⟨?_, by simp⟩
  unfold find_spans
  rw [find_spans_go_skip_inactive 0 pre _ hpre]
  have hadj := adjust_fragment_whole ⟨0, et⟩ espan hline hcol
  simp only [find_spans_go, emission_step, he, if_true, gt_iff_lt,
    Nat.lt_irrefl, decide_False, Bool.false_and, Bool.false_eq_true, if_false,
    hadj, find_spans_go_active_whole 0 0 rest hrest]

/-- Witness for C9 on the S5 mapping, whose first entry contains offset 0:
the empty query `0..0` returns both entries. -/
theorem c9_empty_query_emits_from_zero_witness :
    find_spans ⟨[], [(⟨0, 5⟩, ⟨⟨1, 2⟩, ⟨1, 6⟩⟩), (⟨6, 11⟩, ⟨⟨2, 0⟩, ⟨2, 4⟩⟩)]⟩ ⟨0, 0⟩
      = .ok [(⟨0, 5⟩, ⟨⟨1, 2⟩, ⟨1, 6⟩⟩), (⟨6, 11⟩, ⟨⟨2, 0⟩, ⟨2, 4⟩⟩)] := by
  exact (c9_empty_query_emits_from_zero [] [] ⟨0, 5⟩ ⟨⟨1, 2⟩, ⟨1, 6⟩⟩
    [(⟨6, 11⟩, ⟨⟨2, 0⟩, ⟨2, 4⟩⟩)] (by decide) (by decide) (by decide)
    (by decide) (by decide)).1

/-- Splitting never yields an empty piece list. -/
theorem split_newlines_ne_nil (l : List Char) : split_newlines l ≠ [] := by
  cases l with
  | nil => simp [split_newlines]
  | cons c rest =>
    by_cases hc : c = '\n'
    · simp [split_newlines, hc]
    · simp only [split_newlines, hc, if_false]
      cases split_newlines rest <;> simp

/-- Prepending a non-newline character extends the first piece. -/
theorem split_newlines_cons_ne (c : Char) (l : List Char) (hc : ¬ c = '\n')
    (h : List Char) (t : List (List Char))
    (hsplit : split_newlines l = h :: t) :
    split_newlines (c :: l) = (c :: h) :: t := by
  simp [split_newlines, hc, hsplit]

/-- A fragment containing a newline splits into at least two pieces. -/
theorem two_le_split_newlines_length (l : List Char) (hn : '\n' ∈ l) :
    2 ≤ (split_newlines l).length := by
  induction l with
  | nil => cases hn
  | cons c rest ih =>
    by_cases hc : c = '\n'
    · have h1 := split_newlines_ne_nil rest
      simp only [split_newlines, hc, if_true, List.length_cons]
      cases hr : split_newlines rest with
      | nil => exact absurd hr h1
      | cons a b => simp
    · have hn2 : '\n' ∈ rest := by
        rcases List.mem_cons.mp hn with h | h
        · exact absurd h.symm hc
        · exact h
      cases hr : split_newlines rest with
      | nil => exact absurd hr (split_newlines_ne_nil rest)
      | cons a b =>
        rw [split_newlines_cons_ne c rest hc a b hr]
        have := ih hn2
        rw [hr] at this
        simpa using this

/-- A piece that ends with the closing delimiter has at least two
scalars. -/
theorem two_le_length_of_block_closer (l : List Char)
    (h : ['*', '/'].isSuffixOf l = true) : 2 ≤ l.length := by
  have h2 : ['*', '/'] <:+ l := by
    rwa [← List.isSuffixOf_iff_suffix]
  simpa using h2.length_le

/-- A content matched by the block-comment regex starts with the two
characters of the opening delimiter. -/
theorem block_comment_is_match_shape (s : List Char)
    (h : block_comment_is_match s = true) : ∃ t, s = '/' :: '*' :: t := by
  match s with
  | [] => simp [block_comment_is_match] at h
  | [a] => simp [block_comment_is_match] at h
  | a :: b :: t =>
    simp only [block_comment_is_match, Bool.and_eq_true, beq_iff_eq,
      decide_eq_true_eq, List.take] at h
    obtain ⟨⟨-, htake⟩, -⟩ := h
    injection htake with e1 htake2
    injection htake2 with e2 _
    exact ⟨t, by rw [e1, e2]⟩

/-- The while-let loop of `literal_set_from_block_comment` appends, for each
remaining line, a literal with `pre = 0`, `post = 2` iff the line ends with
the closing delimiter, column 0, and consecutive line numbers starting just
after the current one. -/
theorem add_block_comment_lines_ok (set : LiteralSet) (n : Nat)
    (lines : List (List Char)) (last : TrimmedLiteral)
    (hlast : set.literals.getLast? = some last) (hline : last.line = n)
    (hbig : ∀ x ∈ lines,
      (if ['*', '/'].isSuffixOf x then 2 else 0) < x.length) :
    add_block_comment_lines set n lines
      = .ok ⟨set.literals ++ (lines.enumFrom (n + 1)).map (fun p =>
          ⟨.Unknown, p.2, 0,
            (if ['*', '/'].isSuffixOf p.2 then 2 else 0), p.1, 0⟩)⟩ := by
  induction lines generalizing set n last with
  | nil => simp [add_block_comment_lines]
  | cons x xs ih =>
    have hx := hbig x (List.mem_cons_self _ _)
    have hfrom : TrimmedLiteral.fromParts .Unknown x 0
        (if ['*', '/'].isSuffixOf x then
          TokenType.BlockComment.post_in_chars else 0) (n + 1) 0
        = .ok ⟨.Unknown, x, 0,
            (if ['*', '/'].isSuffixOf x then 2 else 0), n + 1, 0⟩ := by
      by_cases hsuf : ['*', '/'].isSuffixOf x
      · simp only [hsuf, if_true] at hx ⊢
        unfold TrimmedLiteral.fromParts
        rw [if_neg (by simp only [TokenType.post_in_chars]; omega),
            if_neg (by simp only [TokenType.post_in_chars]; omega)]
        rfl
      · simp only [hsuf, Bool.false_eq_true, if_false] at hx ⊢
        unfold TrimmedLiteral.fromParts
        rw [if_neg (by omega), if_neg (by omega)]
    have hadd : set.add_adjacent
        ⟨.Unknown, x, 0, (if ['*', '/'].isSuffixOf x then 2 else 0), n + 1, 0⟩
        = .ok ⟨set.literals ++
            [⟨.Unknown, x, 0, (if ['*', '/'].isSuffixOf x then 2 else 0),
              n + 1, 0⟩]⟩ := by
      simp [LiteralSet.add_adjacent, hlast, hline]
    simp only [add_block_comment_lines, hfrom, hadd]
    have hih := ih (⟨set.literals ++
        [⟨.Unknown, x, 0, (if ['*', '/'].isSuffixOf x then 2 else 0),
          n + 1, 0⟩]⟩ : LiteralSet) (n + 1)
      ⟨.Unknown, x, 0, (if ['*', '/'].isSuffixOf x then 2 else 0), n + 1, 0⟩
      (by simp) rfl (fun y hy => hbig y (List.mem_cons_of_mem _ hy))
    rw [hih]
    simp [List.enumFrom, List.append_assoc]

/-- **C4 (counterexample).** On the nested block comment
`/* a /* b\nc */\nd */` (one well-delimited token whose content matches the
block-comment regex and contains newlines), the middle line `c */` ends with
the closing delimiter and receives `post_scalars = 2`, not the
`post_scalars = 0` the claim states for every middle line; and on
`/* x\n*/`, whose final line is exactly `*/`, the column arithmetic of
`TrimmedLiteral::from` would wrap, so `literal_set_from_block_comment`
fails instead of producing one literal per line. -/
theorem c4_counterexample_nested_middle_line :
    literal_set_from_block_comment
        ⟨TokenType.BlockComment, ("/* a /* b\nc */\nd */").toList, 1, 0⟩
      = .ok ⟨[⟨.Unknown, ("/* a /* b").toList, 2, 0, 1, 0⟩,
              ⟨.Unknown, ("c */").toList, 0, 2, 2, 0⟩,
              ⟨.Unknown, ("d */").toList, 0, 2, 3, 0⟩]⟩
    ∧ (⟨.Unknown, ("c */").toList, 0, 2, 2, 0⟩ : TrimmedLiteral).post ≠ 0
    ∧ literal_set_from_block_comment
        ⟨TokenType.BlockComment, ("/* x\n*/").toList, 1, 0⟩
      = .error "Failed to create literal: column arithmetic would wrap" := by
  refine ⟨by decide, by decide, by decide⟩

/-- **C4 (amended).** For every block-comment token whose content contains a
newline and whose every line after the first is long enough for its trim
(non-empty, and at least 3 scalars when it ends with `*/`; otherwise
`TrimmedLiteral::from` fails because the computed column arithmetic would
wrap, and the token is dropped), `literal_set_from_block_comment` builds one
literal per line of the split content: the first line with `pre = 2`,
`post = 0` at the token's line and column; every further line `i` with
`pre = 0`, column 0, line `token.line + i`, and `post = 2` iff that line
ends with the closing delimiter — middle lines included, not only the final
one. -/
theorem c4_multiline_block_comment_literals (token : TokenWithType)
    (hk : token.kind = TokenType.BlockComment)
    (hm : block_comment_is_match token.content = true)
    (hn : '\n' ∈ token.content)
    (hlines : ∀ x ∈ (split_newlines token.content).tail,
      (if ['*', '/'].isSuffixOf x then 2 else 0) < x.length) :
    literal_set_from_block_comment token
      = .ok ⟨⟨.Unknown, (split_newlines token.content).headI, 2, 0,
            token.line, token.column⟩
          :: (((split_newlines token.content).tail).enumFrom
              (token.line + 1)).map (fun p =>
            ⟨.Unknown, p.2, 0,
              (if ['*', '/'].isSuffixOf p.2 then 2 else 0), p.1, 0⟩)⟩ := by
  obtain ⟨k, content, line, column⟩ := token
  simp only at hk hm hn hlines ⊢
  subst hk
  obtain ⟨t, hcont⟩ := block_comment_is_match_shape content hm
  subst hcont
  obtain ⟨h1, t1, hsplit_t⟩ :
      ∃ h1 t1, split_newlines t = h1 :: t1 := by
    cases hs : split_newlines t with
    | nil => exact absurd hs (split_newlines_ne_nil t)
    | cons a b => exact ⟨a, b, rfl⟩
  have hsplit_star : split_newlines ('*' :: t) = ('*' :: h1) :: t1 :=
    split_newlines_cons_ne '*' t (by decide) h1 t1 hsplit_t
  have hsplit : split_newlines ('/' :: '*' :: t)
      = ('/' :: '*' :: h1) :: t1 :=
    split_newlines_cons_ne '/' ('*' :: t) (by decide) ('*' :: h1) t1
      hsplit_star
  have ht1 : t1 ≠ [] := by
    intro habs
    have := two_le_split_newlines_length ('/' :: '*' :: t) hn
    rw [hsplit, habs] at this
    simp at this
  obtain ⟨p1, rest1, hrest⟩ : ∃ p1 rest1, t1 = p1 :: rest1 := by
    cases t1 with
    | nil => exact absurd rfl ht1
    | cons a b => exact ⟨a, b, rfl⟩
  subst hrest
  rw [hsplit] at hlines
  simp only [List.tail_cons] at hlines
  have hfirst : TrimmedLiteral.fromParts .Unknown ('/' :: '*' :: h1)
      TokenType.BlockComment.pre_in_chars 0 line column
      = .ok ⟨.Unknown, '/' :: '*' :: h1, 2, 0, line, column⟩ := by
    unfold TrimmedLiteral.fromParts
    rw [if_neg (by simp only [List.length_cons, TokenType.pre_in_chars]; omega),
        if_neg (by simp only [List.length_cons]; omega)]
    rfl
  simp only [literal_set_from_block_comment, hm, not_true, if_false,
    ne_eq, reduceCtorEq, not_false_eq_true, ite_false, hsplit, hfirst]
  rw [add_block_comment_lines_ok (LiteralSet.fromLiteral _) line
    (p1 :: rest1) ⟨.Unknown, '/' :: '*' :: h1, 2, 0, line, column⟩
    (by simp [LiteralSet.fromLiteral]) rfl hlines]
  simp [LiteralSet.fromLiteral]

/-- Witness for C4 at the S4 source `"/* block\n 种 \ncomment */"`: three
literals `(pre=2, post=0)`, `(pre=0, post=0)`, `(pre=0, post=2)` on lines 1,
2, 3, whose trimmed contents are `" block"`, `" 种 "` and `"comment "`. -/
theorem c4_multiline_block_comment_literals_witness :
    literal_set_from_block_comment
        ⟨TokenType.BlockComment, ("/* block\n 种 \ncomment */").toList, 1, 0⟩
      = .ok ⟨[⟨.Unknown, ("/* block").toList, 2, 0, 1, 0⟩,
              ⟨.Unknown, (" 种 ").toList, 0, 0, 2, 0⟩,
              ⟨.Unknown, ("comment */").toList, 0, 2, 3, 0⟩]⟩
    ∧ [⟨.Unknown, ("/* block").toList, 2, 0, 1, 0⟩,
       ⟨.Unknown, (" 种 ").toList, 0, 0, 2, 0⟩,
       (⟨.Unknown, ("comment */").toList, 0, 2, 3, 0⟩ : TrimmedLiteral)].map
        TrimmedLiteral.trimmed
      = [(" block").toList, (" 种 ").toList, ("comment ").toList] := by
  refine ⟨?_, by decide⟩
  have := c4_multiline_block_comment_literals
    ⟨TokenType.BlockComment, ("/* block\n 种 \ncomment */").toList, 1, 0⟩
    rfl (by decide) (by decide) (by decide)
  exact this.trans (by decide)

end CargoSpellcheck
